import Mathlib

/-!
# Search-result comparison engine (`HW1/compare.go`)

A shallow embedding of the scoring functions of `compare.go`
(`calculateOverlap`, `rankURLs`, `spearmanRank` and the comparison loop of
`compare`) together with the properties of the specification that concern them.

Modelling conventions.

* A Go `[]string` is a `List String`; `len` is `List.length`.
* A Go `int` is a `Nat`: every integer of the program is a counter or a slice
  position, bounded by a slice length, so no wrap-around can occur.
* A Go `float64` is a value of `F64`: an exact rational, or one of the three
  special values NaN, +Inf, -Inf that a division by zero produces.  Rounding and
  overflow of finite values are not modelled (arithmetic on finite values is
  exact); all finite values the program manipulates before its final division
  are integers, which `float64` holds exactly below `2 ^ 53`, so the model and
  the program part only once `dSquareSum` passes that bound (lists beyond about
  `3 * 10 ^ 5` URLs).  Statements that depend on values of that size are scoped
  to exact arithmetic in their doc comments.
* A Go `map[string]int` is a lookup function `String → Option Nat`.
* A run-time panic (slice index out of range) is the error of `Except`.
-/

namespace Compare

/-! ## The `float64` model -/

/-- A `float64` value: a finite number (kept exact), or a special value. -/
inductive F64 where
  | fin (q : ℚ)
  | posInf
  | negInf
  | nan
deriving DecidableEq

namespace F64

/-- The conversion `float64(i)` of a non-negative Go `int`. -/
def ofNat (i : Nat) : F64 := fin (i : ℚ)

/-- The sign-directed infinity; a zero factor gives NaN. -/
def signedInf (q : ℚ) : F64 :=
  if q = 0 then nan else if 0 < q then posInf else negInf

/-- Addition of `float64` values. -/
def add : F64 → F64 → F64
  | fin a, fin b => fin (a + b)
  | nan, _ => nan
  | _, nan => nan
  | posInf, negInf => nan
  | negInf, posInf => nan
  | posInf, _ => posInf
  | negInf, _ => negInf
  | _, posInf => posInf
  | _, negInf => negInf

/-- Negation of `float64` values. -/
def neg : F64 → F64
  | fin a => fin (-a)
  | posInf => negInf
  | negInf => posInf
  | nan => nan

/-- Subtraction of `float64` values. -/
def sub (x y : F64) : F64 := add x (neg y)

/-- Multiplication of `float64` values. -/
def mul : F64 → F64 → F64
  | fin a, fin b => fin (a * b)
  | nan, _ => nan
  | _, nan => nan
  | fin a, posInf => signedInf a
  | fin a, negInf => signedInf (-a)
  | posInf, fin b => signedInf b
  | negInf, fin b => signedInf (-b)
  | posInf, posInf => posInf
  | negInf, negInf => posInf
  | posInf, negInf => negInf
  | negInf, posInf => negInf

/-- Division of `float64` values; a zero divisor is the positive zero, so a
finite non-zero dividend gives the infinity of its sign and `0 / 0` gives NaN. -/
def div : F64 → F64 → F64
  | fin a, fin b => if b = 0 then signedInf a else fin (a / b)
  | nan, _ => nan
  | _, nan => nan
  | fin _, posInf => fin 0
  | fin _, negInf => fin 0
  | posInf, fin b => if 0 ≤ b then posInf else negInf
  | negInf, fin b => if 0 ≤ b then negInf else posInf
  | posInf, posInf => nan
  | posInf, negInf => nan
  | negInf, posInf => nan
  | negInf, negInf => nan

/-- The comparison `x == y` of `float64` values (NaN equals nothing). -/
def eqb : F64 → F64 → Bool
  | fin a, fin b => decide (a = b)
  | posInf, posInf => true
  | negInf, negInf => true
  | _, _ => false

instance : Add F64 := ⟨add⟩
instance : Sub F64 := ⟨sub⟩
instance : Mul F64 := ⟨mul⟩
instance : Div F64 := ⟨div⟩

end F64

/-! ## `calculateOverlap` -/

/-- The inner loop of `calculateOverlap`: scan `googleResults` for `url`; on the
first match increment the counter and `break`. -/
def overlapInner (url : String) : List String → Nat → Nat
  | [], overlapCount => overlapCount
  | gUrl :: rest, overlapCount =>
    if url = gUrl then overlapCount + 1 else overlapInner url rest overlapCount

/-- The outer loop of `calculateOverlap` over `yourResults`. -/
def overlapOuter (googleResults : List String) : List String → Nat → Nat
  | [], overlapCount => overlapCount
  | url :: rest, overlapCount =>
    overlapOuter googleResults rest (overlapInner url googleResults overlapCount)

/-- The function `calculateOverlap`: the overlap count and the overlap percentage
`(float64(overlapCount) / float64(len(googleResults))) * 100`. -/
def calculateOverlap (yourResults googleResults : List String) : F64 × F64 :=
  let overlapCount := overlapOuter googleResults yourResults 0
  (F64.ofNat overlapCount,
    (F64.ofNat overlapCount / F64.ofNat googleResults.length) * F64.fin 100)

/-! ## `rankURLs` -/

/-- The assignment `m[k] = v` on a Go map. -/
def mapSet (m : String → Option Nat) (k : String) (v : Nat) : String → Option Nat :=
  fun k' => if k' = k then some v else m k'

/-- The first loop of `rankURLs`: `rankMap[url] = i + 1` for each position `i`
of `googleResults`, in order (a later occurrence overwrites an earlier one). -/
def buildRankMap : List String → Nat → (String → Option Nat) → (String → Option Nat)
  | [], _, rankMap => rankMap
  | url :: rest, i, rankMap => buildRankMap rest (i + 1) (mapSet rankMap url (i + 1))

/-- The function `rankURLs`. -/
def rankURLs (results googleResults : List String) : List F64 :=
  let rankMap := buildRankMap googleResults 0 (fun _ => none)
  results.map fun url =>
    match rankMap url with
    | some rank => F64.ofNat rank
    | none => F64.ofNat (googleResults.length + 1)

/-! ## `spearmanRank` -/

/-- A run-time panic of the Go program. -/
inductive Panic where
  | indexOutOfRange (index length : Nat)
deriving DecidableEq

/-- The loop `for i := range yourRank` of `spearmanRank`, from position `i` on:
`d := yourRank[i] - googleRank[i]; dSquareSum += d * d`.  Reading
`googleRank[i]` past the end of `googleRank` panics. -/
def sumSquares (googleRank : List F64) : List F64 → Nat → F64 → Except Panic F64
  | [], _, dSquareSum => .ok dSquareSum
  | y :: rest, i, dSquareSum =>
    match googleRank[i]? with
    | none => .error (.indexOutOfRange i googleRank.length)
    | some g =>
      let d := y - g
      sumSquares googleRank rest (i + 1) (dSquareSum + d * d)

/-- The function `spearmanRank`. -/
def spearmanRank (yourResults googleResults : List String) : Except Panic F64 :=
  let yourRank := rankURLs yourResults googleResults
  let googleRank := rankURLs googleResults googleResults
  let n := F64.ofNat googleResults.length
  if F64.eqb n (F64.fin 0) then .ok (F64.fin 0)
  else
    match sumSquares googleRank yourRank 0 (F64.fin 0) with
    | .error e => .error e
    | .ok dSquareSum => .ok (F64.fin 1 - (F64.fin 6 * dSquareSum) / (n * (n * n - F64.fin 1)))

/-! ## The comparison loop of `compare` -/

/-- The four result slices of `compare` and the lines it prints. -/
structure CompareState where
  overlaps : List F64
  overLapCounts : List F64
  correlations : List F64
  queryNames : List String
  stdout : List String

/-- The state before the loop: four nil slices, nothing printed. -/
def CompareState.init : CompareState := ⟨[], [], [], [], []⟩

/-- One iteration of the loop `for query, googleResultURLs := range googleResults`. -/
def compareStep (yourResults : String → Option (List String)) (st : CompareState)
    (query : String) (googleResultURLs : List String) : Except Panic CompareState :=
  match yourResults query with
  | none =>
    .ok { st with
      stdout := st.stdout ++ ["\n", "Query " ++ query ++ " not found in your results\n"] }
  | some yourResultURLs =>
    let (overLapCount, overlap) := calculateOverlap yourResultURLs googleResultURLs
    match spearmanRank yourResultURLs googleResultURLs with
    | .error e => .error e
    | .ok correlation =>
      .ok { st with
        overlaps := st.overlaps ++ [overlap]
        overLapCounts := st.overLapCounts ++ [overLapCount]
        correlations := st.correlations ++ [correlation]
        queryNames := st.queryNames ++ [query] }

/-- The comparison loop of `compare`, run over the entries of the reference map
in the order the iteration visits them. -/
def compareLoop (yourResults : String → Option (List String)) :
    List (String × List String) → CompareState → Except Panic CompareState
  | [], st => .ok st
  | (query, googleResultURLs) :: rest, st =>
    match compareStep yourResults st query googleResultURLs with
    | .error e => .error e
    | .ok st' => compareLoop yourResults rest st'

/-! ## The rank map -/

/-- The map built by the first loop of `rankURLs` from the empty map. -/
def rankMapOf (googleResults : List String) : String → Option Nat :=
  buildRankMap googleResults 0 (fun _ => none)

/-- The integer rank `rankURLs` gives to `url` before the conversion to `float64`:
the map entry when there is one, else `len(googleResults) + 1`. -/
def rankNat (googleResults : List String) (url : String) : Nat :=
  match rankMapOf googleResults url with
  | some rank => rank
  | none => googleResults.length + 1

/-- The sum of the squared differences of two integer rank vectors, position by
position, over the common positions. -/
def sqDiffSum (ys gs : List Nat) : ℚ :=
  (List.zipWith (fun (y g : Nat) => ((y : ℚ) - (g : ℚ)) ^ 2) ys gs).sum

/-- The candidate map `{"q1": ["b", "a", "c"]}`. -/
def exampleCandidates : String → Option (List String) :=
  fun q => if q = "q1" then some ["b", "a", "c"] else none

/-! ## Lemmas on the rank map -/

theorem buildRankMap_append (l : List String) (x : String) (i : Nat)
    (m : String → Option Nat) :
    buildRankMap (l ++ [x]) i m = mapSet (buildRankMap l i m) x (i + l.length + 1) := by
  induction l generalizing i m with
  | nil => simp [buildRankMap]
  | cons a l ih =>
    show buildRankMap (l ++ [x]) (i + 1) (mapSet m a (i + 1)) = _
    rw [ih]
    show _ = mapSet (buildRankMap l (i + 1) (mapSet m a (i + 1))) x (i + (l.length + 1) + 1)
    rw [show i + 1 + l.length + 1 = i + (l.length + 1) + 1 by omega]

theorem rankMapOf_nil (u : String) : rankMapOf [] u = none := rfl

theorem rankMapOf_append (l : List String) (x u : String) :
    rankMapOf (l ++ [x]) u = if u = x then some (l.length + 1) else rankMapOf l u := by
  unfold rankMapOf
  rw [buildRankMap_append]
  simp [mapSet]

theorem rankMapOf_eq_none_iff (B : List String) (u : String) :
    rankMapOf B u = none ↔ u ∉ B := by
  induction B using List.reverseRecOn with
  | nil => simp [rankMapOf_nil]
  | append_singleton l x ih =>
    rw [rankMapOf_append]
    by_cases h : u = x
    · simp [h]
    · simp [h, ih]

theorem rankMapOf_eq_some (B : List String) (u : String) (r : Nat)
    (h : rankMapOf B u = some r) :
    1 ≤ r ∧ r ≤ B.length ∧ B[r - 1]? = some u ∧ ∀ j, r ≤ j → B[j]? ≠ some u := by
  induction B using List.reverseRecOn with
  | nil => simp [rankMapOf_nil] at h
  | append_singleton l x ih =>
    rw [rankMapOf_append] at h
    by_cases hu : u = x
    · simp only [hu, if_true, Option.some.injEq] at h
      subst h
      subst hu
      refine ⟨by omega, by simp, by simp, ?_⟩
      intro j hj
      rw [List.getElem?_eq_none (by simp; omega)]
      simp
    · simp only [hu, if_false] at h
      obtain ⟨h1, h2, h3, h4⟩ := ih h
      refine ⟨h1, by simp; omega, ?_, ?_⟩
      · rw [List.getElem?_append_left (by omega)]
        exact h3
      · intro j hj
        rcases Nat.lt_trichotomy j l.length with hlt | heq | hgt
        · rw [List.getElem?_append_left hlt]
          exact h4 j hj
        · subst heq
          simp
          exact fun hx => hu hx.symm
        · rw [List.getElem?_eq_none (by simp; omega)]
          simp

theorem rankURLs_eq (X B : List String) :
    rankURLs X B = X.map fun url =>
      match rankMapOf B url with
      | some rank => F64.ofNat rank
      | none => F64.ofNat (B.length + 1) := rfl

/-! ## Properties of `rankURLs` -/

theorem rankURLs_getElem? (X B : List String) (i : Nat) (u : String)
    (h : X[i]? = some u) :
    (rankURLs X B)[i]? = some (match rankMapOf B u with
      | some rank => F64.ofNat rank
      | none => F64.ofNat (B.length + 1)) := by
  rw [rankURLs_eq, List.getElem?_map, h]
  rfl

/-- C1: `rankURLs X B` has exactly `len(X)` values, and the value at each position
is a rank `k` with `1 ≤ k ≤ len(B) + 1`: at most `len(B)` when the URL occurs in
`B`, exactly `len(B) + 1` when it does not. -/
theorem rankURLs_length_and_range (X B : List String) :
    (rankURLs X B).length = X.length ∧
    ∀ (i : Nat) (u : String), X[i]? = some u →
      ∃ k : Nat, (rankURLs X B)[i]? = some (F64.ofNat k) ∧ 1 ≤ k ∧ k ≤ B.length + 1 ∧
        (u ∈ B → k ≤ B.length) ∧ (u ∉ B → k = B.length + 1) := by
  refine ⟨by simp [rankURLs], ?_⟩
  intro i u h
  rw [rankURLs_getElem? X B i u h]
  cases hr : rankMapOf B u with
  | none =>
    have hu : u ∉ B := (rankMapOf_eq_none_iff B u).1 hr
    exact ⟨B.length + 1, rfl, by omega, le_refl _, fun hm => absurd hm hu, fun _ => rfl⟩
  | some r =>
    obtain ⟨h1, h2, -, -⟩ := rankMapOf_eq_some B u r hr
    have hu : u ∈ B := by
      by_contra hn
      rw [(rankMapOf_eq_none_iff B u).2 hn] at hr
      exact Option.noConfusion hr
    exact ⟨r, rfl, h1, by omega, fun _ => h2, fun hn => absurd hu hn⟩

theorem rankURLs_length_and_range_witness :
    (rankURLs ["a", "z"] ["a", "b"]).length = 2 ∧
    (∃ k : Nat, (rankURLs ["a", "z"] ["a", "b"])[0]? = some (F64.ofNat k) ∧ 1 ≤ k ∧
      k ≤ 2) ∧
    ∃ k : Nat, (rankURLs ["a", "z"] ["a", "b"])[1]? = some (F64.ofNat k) ∧ 1 ≤ k ∧
      k = 3 := by
  obtain ⟨hl, hv⟩ := rankURLs_length_and_range ["a", "z"] ["a", "b"]
  obtain ⟨k0, a1, a2, -, a4, -⟩ := hv 0 "a" rfl
  obtain ⟨k1, b1, b2, -, -, b5⟩ := hv 1 "z" rfl
  exact ⟨hl, ⟨k0, a1, a2, a4 (by decide)⟩, ⟨k1, b1, b2, b5 (by decide)⟩⟩

/-- C2 fails as stated: with the reference `["a", "b", "a"]` the URL `"a"` gets
rank 3, the position of its last occurrence, not rank 1. -/
theorem rankURLs_first_occurrence_fails :
    rankURLs ["a"] ["a", "b", "a"] = [F64.ofNat 3] ∧
    rankURLs ["a"] ["a", "b", "a"] ≠ [F64.ofNat 1] := by
  have h : rankURLs ["a"] ["a", "b", "a"] = [F64.ofNat 3] := by
    simp [rankURLs, buildRankMap, mapSet]
  refine ⟨h, ?_⟩
  rw [h]
  simp [F64.ofNat]

/-- C2, amended: a URL `u` of the target list that occurs in the reference list
`B` gets the 1-based position of the LAST occurrence of `u` in `B`: its rank is
`p + 1` where `B[p] = u` and no later position of `B` holds `u`. -/
theorem rankURLs_last_occurrence (X B : List String) (i : Nat) (u : String)
    (hX : X[i]? = some u) (hB : u ∈ B) :
    ∃ p : Nat, (rankURLs X B)[i]? = some (F64.ofNat (p + 1)) ∧ B[p]? = some u ∧
      ∀ j, p < j → B[j]? ≠ some u := by
  rw [rankURLs_getElem? X B i u hX]
  cases hr : rankMapOf B u with
  | none => exact absurd hB ((rankMapOf_eq_none_iff B u).1 hr)
  | some r =>
    obtain ⟨h1, -, h3, h4⟩ := rankMapOf_eq_some B u r hr
    refine ⟨r - 1, ?_, h3, fun j hj => h4 j (by omega)⟩
    rw [show r - 1 + 1 = r by omega]

theorem rankURLs_last_occurrence_witness :
    ∃ p : Nat, (rankURLs ["b", "a"] ["a", "b", "a"])[1]? = some (F64.ofNat (p + 1)) ∧
      ["a", "b", "a"][p]? = some "a" ∧ ∀ j, p < j → ["a", "b", "a"][j]? ≠ some "a" :=
  rankURLs_last_occurrence ["b", "a"] ["a", "b", "a"] 1 "a" rfl (by decide)

/-! ## Properties of `calculateOverlap` -/

theorem overlapInner_eq (url : String) (B : List String) (c : Nat) :
    overlapInner url B c = if url ∈ B then c + 1 else c := by
  induction B with
  | nil => simp [overlapInner]
  | cons g rest ih =>
    by_cases h : url = g
    · simp [overlapInner, h]
    · simp [overlapInner, h, ih]

theorem overlapOuter_eq (B A : List String) (c : Nat) :
    overlapOuter B A c = c + (A.filter fun url => decide (url ∈ B)).length := by
  induction A generalizing c with
  | nil => simp [overlapOuter]
  | cons a rest ih =>
    rw [overlapOuter, ih, overlapInner_eq]
    by_cases h : a ∈ B
    · simp [h, List.filter_cons]
      omega
    · simp [h, List.filter_cons]

theorem overlapOuter_self (A : List String) : overlapOuter A A 0 = A.length := by
  rw [overlapOuter_eq, List.filter_eq_self.2]
  · simp
  · intro a ha
    simpa using ha

/-- C3 fails as stated: the candidate `["a", "a"]` against the reference `["a"]`
has overlap count 2, more than `min(2, 1) = 1`. -/
theorem calculateOverlap_count_exceeds_min :
    (calculateOverlap ["a", "a"] ["a"]).1 = F64.ofNat 2 ∧
    ¬ (2 ≤ min ["a", "a"].length ["a"].length) := by
  refine ⟨?_, by decide⟩
  simp [calculateOverlap, overlapOuter, overlapInner]

/-- C3, amended: the overlap count of `calculateOverlap A B` is at most `len(A)`
for all lists, and at most `min(len(A), len(B))` when the candidate list `A` has
no duplicate URL (duplicates in `B` allowed). -/
theorem calculateOverlap_count_le (A B : List String) :
    ∃ k : Nat, (calculateOverlap A B).1 = F64.ofNat k ∧ k ≤ A.length ∧
      (A.Nodup → k ≤ min A.length B.length) := by
  refine ⟨overlapOuter B A 0, rfl, ?_, ?_⟩
  · rw [overlapOuter_eq, Nat.zero_add]
    exact List.length_filter_le _ _
  · intro hA
    rw [overlapOuter_eq, Nat.zero_add]
    refine le_min (List.length_filter_le _ _) ?_
    have hnd : (A.filter fun url => decide (url ∈ B)).Nodup := hA.filter _
    have hsub : (A.filter fun url => decide (url ∈ B)) ⊆ B := by
      intro x hx
      simpa using (List.mem_filter.1 hx).2
    exact (hnd.subperm hsub).length_le

theorem calculateOverlap_count_le_witness :
    ∃ k : Nat, (calculateOverlap ["a", "c"] ["a", "a", "b"]).1 = F64.ofNat k ∧
      k ≤ ["a", "c"].length ∧ k ≤ min ["a", "c"].length ["a", "a", "b"].length := by
  obtain ⟨k, h1, h2, h3⟩ := calculateOverlap_count_le ["a", "c"] ["a", "a", "b"]
  exact ⟨k, h1, h2, h3 (by decide)⟩

/-- C7: for a non-empty list `A` the call `calculateOverlap A A` counts every
element (`count = len(A)`) and returns the percentage exactly 100. -/
theorem calculateOverlap_self (A : List String) (hA : 0 < A.length) :
    calculateOverlap A A = (F64.ofNat A.length, F64.fin 100) := by
  have hne : (A.length : ℚ) ≠ 0 := by
    exact_mod_cast Nat.pos_iff_ne_zero.1 hA
  simp only [calculateOverlap, overlapOuter_self]
  show (F64.ofNat A.length, F64.mul (F64.div (F64.ofNat A.length) (F64.ofNat A.length))
    (F64.fin 100)) = _
  simp [F64.ofNat, F64.div, F64.mul, hne]

theorem calculateOverlap_self_witness :
    calculateOverlap ["a", "a", "b"] ["a", "a", "b"]
      = (F64.ofNat ["a", "a", "b"].length, F64.fin 100) :=
  calculateOverlap_self ["a", "a", "b"] (by decide)

/-- C8 (the code at an empty reference list): `calculateOverlap` has no guard; it
evaluates `0 / 0` and returns the count 0 with the percentage NaN. -/
theorem calculateOverlap_empty_reference (candidate : List String) :
    calculateOverlap candidate [] = (F64.fin 0, F64.nan) := by
  have h : overlapOuter [] candidate 0 = 0 := by
    rw [overlapOuter_eq]
    simp
  simp only [calculateOverlap, h]
  show (F64.ofNat 0, F64.mul (F64.div (F64.ofNat 0) (F64.ofNat 0)) (F64.fin 100)) = _
  simp [F64.ofNat, F64.div, F64.mul, F64.signedInf]

/-! ## Arithmetic of finite `float64` values -/

namespace F64

theorem fin_add (a b : ℚ) : fin a + fin b = fin (a + b) := rfl

theorem fin_sub (a b : ℚ) : fin a - fin b = fin (a - b) := by
  show add (fin a) (neg (fin b)) = _
  simp [add, neg, sub_eq_add_neg]

theorem fin_mul (a b : ℚ) : fin a * fin b = fin (a * b) := rfl

theorem fin_div (a b : ℚ) (hb : b ≠ 0) : fin a / fin b = fin (a / b) := by
  show div (fin a) (fin b) = _
  simp [div, hb]

end F64

/-! ## The loop of `spearmanRank` -/

theorem rankURLs_eq_map_rankNat (X B : List String) :
    rankURLs X B = (X.map (rankNat B)).map F64.ofNat := by
  rw [rankURLs_eq, List.map_map]
  apply List.map_congr_left
  intro u _
  simp only [Function.comp, rankNat]
  cases rankMapOf B u <;> rfl

theorem sumSquares_in_bounds (gs : List Nat) (ys : List Nat) (i : Nat) (acc : ℚ)
    (h : i + ys.length ≤ gs.length) :
    sumSquares (gs.map F64.ofNat) (ys.map F64.ofNat) i (F64.fin acc)
      = .ok (F64.fin (acc + sqDiffSum ys (gs.drop i))) := by
  induction ys generalizing i acc with
  | nil => simp [sumSquares, sqDiffSum]
  | cons y rest ih =>
    have hi : i < gs.length := by
      simp only [List.length_cons] at h
      omega
    have hg : (gs.map F64.ofNat)[i]? = some (F64.ofNat gs[i]) := by
      simp [List.getElem?_eq_getElem hi]
    simp only [List.map_cons, sumSquares, hg]
    have hstep : F64.fin acc + (F64.ofNat y - F64.ofNat gs[i]) * (F64.ofNat y - F64.ofNat gs[i])
        = F64.fin (acc + ((y : ℚ) - (gs[i] : ℚ)) ^ 2) := by
      simp only [F64.ofNat, F64.fin_sub, F64.fin_mul, F64.fin_add, pow_two]
    rw [hstep, ih (i + 1) _ (by simp only [List.length_cons] at h; omega)]
    rw [List.drop_eq_getElem_cons hi]
    simp only [sqDiffSum, List.zipWith_cons_cons, List.sum_cons]
    rw [add_assoc]

theorem sumSquares_out_of_range (gs ys : List F64) (i : Nat) (acc : F64)
    (hi : i ≤ gs.length) (h : gs.length < i + ys.length) :
    sumSquares gs ys i acc = .error (.indexOutOfRange gs.length gs.length) := by
  induction ys generalizing i acc with
  | nil => simp at h; omega
  | cons y rest ih =>
    rcases Nat.lt_or_ge i gs.length with hlt | hge
    · simp only [sumSquares, List.getElem?_eq_getElem hlt]
      exact ih (i + 1) _ hlt (by simp only [List.length_cons] at h; omega)
    · have hieq : i = gs.length := le_antisymm hi hge
      subst hieq
      simp [sumSquares]

theorem eqb_ofNat_zero (n : Nat) : F64.eqb (F64.ofNat n) (F64.fin 0) = decide (n = 0) := by
  simp [F64.eqb, F64.ofNat]

theorem spearmanRank_nil (X : List String) : spearmanRank X [] = .ok (F64.fin 0) := by
  simp [spearmanRank, eqb_ofNat_zero]

theorem spearmanRank_in_bounds (X B : List String) (hB : 0 < B.length)
    (hX : X.length ≤ B.length) :
    spearmanRank X B = .ok (F64.fin 1 -
      (F64.fin 6 * F64.fin (sqDiffSum (X.map (rankNat B)) (B.map (rankNat B)))) /
        (F64.ofNat B.length * (F64.ofNat B.length * F64.ofNat B.length - F64.fin 1))) := by
  have hne : ¬ (B.length = 0) := by omega
  simp only [spearmanRank, eqb_ofNat_zero, hne, decide_False, Bool.false_eq_true, if_false,
    rankURLs_eq_map_rankNat]
  rw [sumSquares_in_bounds _ _ 0 0 (by simpa using hX)]
  simp

theorem spearmanRank_out_of_range (X B : List String) (hB : 0 < B.length)
    (hX : B.length < X.length) :
    spearmanRank X B = .error (.indexOutOfRange B.length B.length) := by
  have hne : ¬ (B.length = 0) := by omega
  simp only [spearmanRank, eqb_ofNat_zero, hne, decide_False, Bool.false_eq_true, if_false]
  rw [sumSquares_out_of_range _ _ 0 _ (Nat.zero_le _) (by simpa [rankURLs] using hX)]
  simp [rankURLs]

theorem spearman_formula (n : Nat) (hn : 2 ≤ n) (S : ℚ) :
    F64.fin 1 - (F64.fin 6 * F64.fin S) /
        (F64.ofNat n * (F64.ofNat n * F64.ofNat n - F64.fin 1))
      = F64.fin (1 - 6 * S / ((n : ℚ) * ((n : ℚ) * (n : ℚ) - 1))) := by
  have h2 : (2 : ℚ) ≤ (n : ℚ) := by exact_mod_cast hn
  have hd : (n : ℚ) * ((n : ℚ) * (n : ℚ) - 1) ≠ 0 := by
    have : 0 < (n : ℚ) * ((n : ℚ) * (n : ℚ) - 1) := by
      apply mul_pos (by linarith)
      nlinarith
    exact ne_of_gt this
  simp only [F64.ofNat, F64.fin_mul, F64.fin_sub]
  rw [F64.fin_div _ _ hd, F64.fin_sub]

/-! ## Properties of `spearmanRank` -/

/-- C10: for a non-empty reference list `spearmanRank` returns (its indexing of
`googleRank` stays in bounds) if and only if `len(candidate) ≤ len(reference)`;
when `len(candidate) > len(reference) ≥ 1` it panics on reading
`googleRank[len(reference)]`, out of range for length `len(reference)`; for an
empty reference it returns 0 before any indexing, whatever the candidate. -/
theorem spearmanRank_index_bounds (X B : List String) :
    (0 < B.length → ((∃ v, spearmanRank X B = .ok v) ↔ X.length ≤ B.length)) ∧
    (0 < B.length → B.length < X.length →
      spearmanRank X B = .error (.indexOutOfRange B.length B.length)) ∧
    spearmanRank X [] = .ok (F64.fin 0) := by
  refine ⟨fun hB => ⟨?_, fun hX => ⟨_, spearmanRank_in_bounds X B hB hX⟩⟩,
    spearmanRank_out_of_range X B, spearmanRank_nil X⟩
  rintro ⟨v, hv⟩
  by_contra hX
  rw [spearmanRank_out_of_range X B hB (by omega)] at hv
  exact Except.noConfusion hv

theorem spearmanRank_index_bounds_witness :
    spearmanRank ["a", "b"] ["a"] = .error (.indexOutOfRange 1 1) :=
  (spearmanRank_index_bounds ["a", "b"] ["a"]).2.1 (by decide) (by decide)

theorem sqDiffSum_self (ys : List Nat) : sqDiffSum ys ys = 0 := by
  induction ys with
  | nil => rfl
  | cons y rest ih =>
    simp only [sqDiffSum, List.zipWith_cons_cons, List.sum_cons] at ih ⊢
    rw [ih]
    simp

/-- C4: for every list `A` with more than one element (duplicates allowed)
`spearmanRank A A` returns exactly 1. -/
theorem spearmanRank_self (A : List String) (hA : 1 < A.length) :
    spearmanRank A A = .ok (F64.fin 1) := by
  rw [spearmanRank_in_bounds A A (by omega) (le_refl _), sqDiffSum_self,
    spearman_formula A.length hA]
  simp

theorem spearmanRank_self_witness :
    spearmanRank ["a", "b", "a"] ["a", "b", "a"] = .ok (F64.fin 1) :=
  spearmanRank_self ["a", "b", "a"] (by decide)

/-! ### Rank vectors of a duplicate-free reference list -/

theorem rankNat_getElem (B : List String) (hB : B.Nodup) (i : Nat) (hi : i < B.length) :
    rankNat B B[i] = i + 1 := by
  unfold rankNat
  cases hr : rankMapOf B B[i] with
  | none => exact absurd (List.getElem_mem hi) ((rankMapOf_eq_none_iff B _).1 hr)
  | some r =>
    obtain ⟨h1, h2, h3, -⟩ := rankMapOf_eq_some B _ r hr
    have hlt : r - 1 < B.length := by omega
    rw [List.getElem?_eq_getElem hlt] at h3
    have := (hB.getElem_inj_iff).1 (Option.some.inj h3)
    show r = i + 1
    omega

theorem googleRank_eq_range (B : List String) (hB : B.Nodup) :
    B.map (rankNat B) = List.range' 1 B.length := by
  apply List.ext_getElem
  · simp
  · intro i h1 h2
    simp only [List.getElem_map, List.getElem_range', Nat.one_mul]
    rw [rankNat_getElem B hB i (by simpa using h1)]
    omega

theorem sum_range_poly (c : ℚ) (n : Nat) :
    ((List.range' 1 n).map fun t : Nat => 2 * (t : ℚ) ^ 2 - 2 * c * (t : ℚ) + c ^ 2 / 2).sum
      = (n : ℚ) * ((n : ℚ) + 1) * (2 * (n : ℚ) + 1) / 3 - c * (n : ℚ) * ((n : ℚ) + 1)
        + (n : ℚ) * c ^ 2 / 2 := by
  induction n with
  | zero => simp
  | succ n ih =>
    rw [List.range'_1_concat, List.map_append, List.sum_append, ih]
    simp only [List.map_cons, List.map_nil, List.sum_cons, List.sum_nil]
    push_cast
    ring

theorem sqDiffSum_add_sqSumSum (c : ℚ) (ys gs : List Nat) (h : ys.length = gs.length) :
    sqDiffSum ys gs
      + (List.zipWith (fun (y g : Nat) => ((y : ℚ) + (g : ℚ) - c) ^ 2) ys gs).sum
      = (ys.map fun t : Nat => 2 * (t : ℚ) ^ 2 - 2 * c * (t : ℚ) + c ^ 2 / 2).sum
        + (gs.map fun t : Nat => 2 * (t : ℚ) ^ 2 - 2 * c * (t : ℚ) + c ^ 2 / 2).sum := by
  induction ys generalizing gs with
  | nil =>
    cases gs with
    | nil => simp [sqDiffSum]
    | cons g gs => simp at h
  | cons y ys ih =>
    cases gs with
    | nil => simp at h
    | cons g gs =>
      have ih' := ih gs (by simpa using h)
      simp only [sqDiffSum, List.zipWith_cons_cons, List.sum_cons, List.map_cons] at ih' ⊢
      linear_combination ih'

theorem sqDiffSum_perm_le (ys : List Nat) (n : Nat) (h : ys.Perm (List.range' 1 n)) :
    sqDiffSum ys (List.range' 1 n) ≤ (n : ℚ) * ((n : ℚ) * (n : ℚ) - 1) / 3 := by
  have hlen : ys.length = (List.range' 1 n).length := h.length_eq
  have hid := sqDiffSum_add_sqSumSum ((n : ℚ) + 1) ys (List.range' 1 n) hlen
  have hperm := (h.map fun t : Nat =>
    2 * (t : ℚ) ^ 2 - 2 * ((n : ℚ) + 1) * (t : ℚ) + ((n : ℚ) + 1) ^ 2 / 2).sum_eq
  rw [hperm, sum_range_poly] at hid
  have hnn : 0 ≤ (List.zipWith (fun (y g : Nat) => ((y : ℚ) + (g : ℚ) - ((n : ℚ) + 1)) ^ 2)
      ys (List.range' 1 n)).sum := by
    apply List.sum_nonneg
    intro x hx
    obtain ⟨i, -, rfl⟩ := List.getElem_of_mem hx
    simp only [List.getElem_zipWith]
    positivity
  nlinarith

theorem sqDiffSum_reverse (n : Nat) :
    sqDiffSum (List.range' 1 n).reverse (List.range' 1 n)
      = (n : ℚ) * ((n : ℚ) * (n : ℚ) - 1) / 3 := by
  have hrev : (List.range' 1 n).reverse = (List.range' 1 n).map fun g => n + 1 - g := by
    apply List.ext_getElem
    · simp
    · intro i h1 h2
      simp only [List.getElem_reverse, List.getElem_map, List.getElem_range', Nat.one_mul,
        List.length_range']
      simp only [List.length_reverse, List.length_range'] at h1
      omega
  have hterm : ∀ g ∈ List.range' 1 n,
      (((n + 1 - g : Nat) : ℚ) - (g : ℚ)) ^ 2
        = 2 * (2 * (g : ℚ) ^ 2 - 2 * ((n : ℚ) + 1) * (g : ℚ) + ((n : ℚ) + 1) ^ 2 / 2) := by
    intro g hg
    have hle : g ≤ n + 1 := by
      have := (List.mem_range'_1.1 hg).2
      omega
    rw [Nat.cast_sub hle]
    push_cast
    ring
  rw [sqDiffSum, hrev, List.zipWith_map_left, List.zipWith_same, List.map_congr_left hterm,
    List.sum_map_mul_left, sum_range_poly]
  ring

theorem sqDiffSum_nonneg (ys gs : List Nat) : 0 ≤ sqDiffSum ys gs := by
  apply List.sum_nonneg
  intro x hx
  obtain ⟨i, -, rfl⟩ := List.getElem_of_mem hx
  simp only [List.getElem_zipWith]
  positivity

theorem denominator_pos (n : Nat) (hn : 2 ≤ n) :
    0 < (n : ℚ) * ((n : ℚ) * (n : ℚ) - 1) := by
  have h2 : (2 : ℚ) ≤ (n : ℚ) := by exact_mod_cast hn
  apply mul_pos (by linarith)
  nlinarith

/-- C5: for every list `B` of pairwise distinct URLs with more than one element,
`spearmanRank (reverse B) B` returns exactly -1 (finite arithmetic exact). -/
theorem spearmanRank_reverse (B : List String) (hB : B.Nodup) (hlen : 1 < B.length) :
    spearmanRank B.reverse B = .ok (F64.fin (-1)) := by
  rw [spearmanRank_in_bounds B.reverse B (by omega) (by simp), List.map_reverse,
    googleRank_eq_range B hB, sqDiffSum_reverse, spearman_formula B.length hlen]
  have hd := ne_of_gt (denominator_pos B.length hlen)
  congr 2
  field_simp
  ring

theorem spearmanRank_reverse_witness :
    spearmanRank ["a", "b", "c"].reverse ["a", "b", "c"] = .ok (F64.fin (-1)) :=
  spearmanRank_reverse ["a", "b", "c"] (by decide) (by decide)

/-- C6 fails as stated: the candidate `["x", "y"]` and the reference `["a", "b"]`
have the same length 2, and `spearmanRank` returns -4, below -1. -/
theorem spearmanRank_below_minus_one :
    spearmanRank ["x", "y"] ["a", "b"] = .ok (F64.fin (-4)) ∧ ¬ ((-1 : ℚ) ≤ -4) := by
  refine ⟨?_, by norm_num⟩
  rw [spearmanRank_in_bounds _ _ (by decide) (by decide), spearman_formula _ (by decide)]
  have h : sqDiffSum (["x", "y"].map (rankNat ["a", "b"])) (["a", "b"].map (rankNat ["a", "b"]))
      = 5 := by
    simp [sqDiffSum, rankNat, rankMapOf, buildRankMap, mapSet]
    norm_num
  rw [h]
  norm_num

/-- C6, amended: for a candidate and a reference of the same length `n ≥ 2`,
`spearmanRank` returns a finite value that is at most 1.  Over exact arithmetic
(the finite `float64` operations taken without rounding, as `F64` models them) the
value is at least -1 when the reference has no duplicate URL and the candidate is
a permutation of it; the rounding of `float64`, which sets in for lists beyond
about `3 * 10 ^ 5` URLs, is outside this lower bound. -/
theorem spearmanRank_range (X B : List String) (hlen : X.length = B.length)
    (hn : 2 ≤ B.length) :
    ∃ q : ℚ, spearmanRank X B = .ok (F64.fin q) ∧ q ≤ 1 ∧
      (B.Nodup → X.Perm B → -1 ≤ q) := by
  have hd := denominator_pos B.length hn
  refine ⟨1 - 6 * sqDiffSum (X.map (rankNat B)) (B.map (rankNat B)) /
    ((B.length : ℚ) * ((B.length : ℚ) * (B.length : ℚ) - 1)), ?_, ?_, ?_⟩
  · rw [spearmanRank_in_bounds X B (by omega) (by omega), spearman_formula B.length hn]
  · have h0 := sqDiffSum_nonneg (X.map (rankNat B)) (B.map (rankNat B))
    have : 0 ≤ 6 * sqDiffSum (X.map (rankNat B)) (B.map (rankNat B)) /
        ((B.length : ℚ) * ((B.length : ℚ) * (B.length : ℚ) - 1)) :=
      div_nonneg (by linarith) (le_of_lt hd)
    linarith
  · intro hB hperm
    have hle := sqDiffSum_perm_le (X.map (rankNat B)) B.length
      (by rw [← googleRank_eq_range B hB]; exact hperm.map _)
    rw [googleRank_eq_range B hB]
    have : 6 * sqDiffSum (X.map (rankNat B)) (List.range' 1 B.length) /
        ((B.length : ℚ) * ((B.length : ℚ) * (B.length : ℚ) - 1)) ≤ 2 := by
      rw [div_le_iff₀ hd]
      linarith
    linarith

theorem spearmanRank_range_witness :
    ∃ q : ℚ, spearmanRank ["b", "a", "c"] ["a", "b", "c"] = .ok (F64.fin q) ∧ q ≤ 1 ∧
      -1 ≤ q := by
  obtain ⟨q, h1, h2, h3⟩ :=
    spearmanRank_range ["b", "a", "c"] ["a", "b", "c"] (by decide) (by decide)
  exact ⟨q, h1, h2, h3 (by decide) (List.Perm.swap "a" "b" ["c"])⟩

/-! ## Properties of the comparison loop -/

theorem compareStep_missing (yourResults : String → Option (List String))
    (st : CompareState) (query : String) (g : List String) (h : yourResults query = none) :
    ∃ st', compareStep yourResults st query g = .ok st' ∧
      st'.queryNames = st.queryNames ∧ st'.overlaps = st.overlaps ∧
      st'.overLapCounts = st.overLapCounts ∧ st'.correlations = st.correlations := by
  simp [compareStep, h]

theorem compareStep_present (yourResults : String → Option (List String))
    (st : CompareState) (query : String) (g y : List String) (v : F64)
    (h : yourResults query = some y) (hv : spearmanRank y g = .ok v) :
    ∃ st', compareStep yourResults st query g = .ok st' ∧
      st'.queryNames = st.queryNames ++ [query] ∧
      st'.overlaps = st.overlaps ++ [(calculateOverlap y g).2] ∧
      st'.overLapCounts = st.overLapCounts ++ [(calculateOverlap y g).1] ∧
      st'.correlations = st.correlations ++ [v] := by
  simp [compareStep, h, hv]

theorem compareLoop_from (yourResults : String → Option (List String))
    (order : List (String × List String)) (st : CompareState)
    (hsafe : ∀ q g y, (q, g) ∈ order → yourResults q = some y →
      ∃ v, spearmanRank y g = .ok v) :
    ∃ st', compareLoop yourResults order st = .ok st' ∧
      st'.queryNames = st.queryNames ++
        (order.filter fun e => (yourResults e.1).isSome).map Prod.fst ∧
      st'.overlaps.length = st.overlaps.length +
        (order.filter fun e => (yourResults e.1).isSome).length ∧
      st'.overLapCounts.length = st.overLapCounts.length +
        (order.filter fun e => (yourResults e.1).isSome).length ∧
      st'.correlations.length = st.correlations.length +
        (order.filter fun e => (yourResults e.1).isSome).length := by
  induction order generalizing st with
  | nil => exact ⟨st, rfl, by simp, by simp, by simp, by simp⟩
  | cons e rest ih =>
    obtain ⟨q, g⟩ := e
    have hrest : ∀ q g y, (q, g) ∈ rest → yourResults q = some y →
        ∃ v, spearmanRank y g = .ok v :=
      fun q g y hm => hsafe q g y (List.mem_cons_of_mem _ hm)
    cases hq : yourResults q with
    | none =>
      obtain ⟨s1, hs1, hn, ho, hc, hr⟩ := compareStep_missing yourResults st q g hq
      obtain ⟨s2, hs2, hn2, ho2, hc2, hr2⟩ := ih s1 hrest
      refine ⟨s2, ?_, ?_, ?_, ?_, ?_⟩
      · simp only [compareLoop, hs1, hs2]
      · rw [hn2, hn]
        simp [List.filter_cons, hq]
      · rw [ho2, ho]
        simp [List.filter_cons, hq]
      · rw [hc2, hc]
        simp [List.filter_cons, hq]
      · rw [hr2, hr]
        simp [List.filter_cons, hq]
    | some y =>
      obtain ⟨v, hv⟩ := hsafe q g y (List.mem_cons_self _ _) hq
      obtain ⟨s1, hs1, hn, ho, hc, hr⟩ := compareStep_present yourResults st q g y v hq hv
      obtain ⟨s2, hs2, hn2, ho2, hc2, hr2⟩ := ih s1 hrest
      refine ⟨s2, ?_, ?_, ?_, ?_, ?_⟩
      · simp only [compareLoop, hs1, hs2]
      · rw [hn2, hn]
        simp [List.filter_cons, hq]
      · rw [ho2, ho]
        simp [List.filter_cons, hq]
        omega
      · rw [hc2, hc]
        simp [List.filter_cons, hq]
        omega
      · rw [hr2, hr]
        simp [List.filter_cons, hq]
        omega

/-- C9: let `reference` list the entries of the reference map and `order` be any
order in which the loop of `compare` visits them.  If no per-query call of
`spearmanRank` indexes out of range, the loop runs to its end: the four slices
`overlaps`, `overLapCounts`, `correlations`, `queryNames` have the same length,
the number of reference queries that are keys of the candidates, and `queryNames`
is a permutation of exactly those queries (absent queries are skipped). -/
theorem compareLoop_present_queries (yourResults : String → Option (List String))
    (reference order : List (String × List String)) (hperm : order.Perm reference)
    (hsafe : ∀ q g y, (q, g) ∈ reference → yourResults q = some y →
      ∃ v, spearmanRank y g = .ok v) :
    ∃ st, compareLoop yourResults order CompareState.init = .ok st ∧
      st.overlaps.length = (reference.filter fun e => (yourResults e.1).isSome).length ∧
      st.overLapCounts.length = (reference.filter fun e => (yourResults e.1).isSome).length ∧
      st.correlations.length = (reference.filter fun e => (yourResults e.1).isSome).length ∧
      st.queryNames.length = (reference.filter fun e => (yourResults e.1).isSome).length ∧
      st.queryNames.Perm
        ((reference.filter fun e => (yourResults e.1).isSome).map Prod.fst) := by
  obtain ⟨st, hst, hn, ho, hc, hr⟩ := compareLoop_from yourResults order CompareState.init
    (fun q g y hm => hsafe q g y (hperm.subset hm))
  have hf : (order.filter fun e => (yourResults e.1).isSome).Perm
      (reference.filter fun e => (yourResults e.1).isSome) := hperm.filter _
  simp only [CompareState.init, List.nil_append, List.length_nil, Nat.zero_add] at hn ho hc hr
  refine ⟨st, hst, ?_, ?_, ?_, ?_, ?_⟩
  · rw [ho, hf.length_eq]
  · rw [hc, hf.length_eq]
  · rw [hr, hf.length_eq]
  · rw [hn, List.length_map, hf.length_eq]
  · rw [hn]
    exact hf.map _

theorem compareLoop_present_queries_witness :
    ∃ st, compareLoop exampleCandidates [("q2", ["d"]), ("q1", ["a", "b", "c"])]
        CompareState.init = .ok st ∧
      st.overlaps.length = 1 ∧ st.overLapCounts.length = 1 ∧ st.correlations.length = 1 ∧
      st.queryNames.length = 1 ∧ st.queryNames.Perm ["q1"] :=
  compareLoop_present_queries exampleCandidates
    [("q1", ["a", "b", "c"]), ("q2", ["d"])] [("q2", ["d"]), ("q1", ["a", "b", "c"])]
    (List.Perm.swap _ _ [])
    (by
      intro q g y hm hy
      simp only [List.mem_cons, Prod.mk.injEq, List.mem_singleton, List.not_mem_nil,
        or_false] at hm
      rcases hm with ⟨rfl, rfl⟩ | ⟨rfl, rfl⟩
      · simp only [exampleCandidates, if_true, Option.some.injEq] at hy
        subst hy
        exact ⟨_, spearmanRank_in_bounds _ _ (by decide) (by decide)⟩
      · simp [exampleCandidates] at hy)

/-! ## The worked example of the specification -/

theorem worked_example :
    calculateOverlap ["b", "a", "c"] ["a", "b", "c"] = (F64.fin 3, F64.fin 100) ∧
    spearmanRank ["b", "a", "c"] ["a", "b", "c"] = .ok (F64.fin (1 / 2)) := by
  constructor
  · simp [calculateOverlap, overlapOuter, overlapInner, F64.ofNat, F64.fin_div, F64.fin_mul]
  · rw [spearmanRank_in_bounds _ _ (by decide) (by decide), spearman_formula _ (by decide)]
    have h : sqDiffSum (["b", "a", "c"].map (rankNat ["a", "b", "c"]))
        (["a", "b", "c"].map (rankNat ["a", "b", "c"])) = 2 := by
      simp [sqDiffSum, rankNat, rankMapOf, buildRankMap, mapSet]
      norm_num
    rw [h]
    norm_num

end Compare
